import Mathlib

/-!
Verification development for the argument-parsing core implied by the
`types/npm-yargs` declaration surface (`src/index.d.ts`).  The repository
contains only TypeScript interface declarations, so every executable
component below is modelled from the specification document (`spec.md`):
the Token Lexer, Schema Registry, Coercion Engine, Command Resolver,
Validator and Result Assembler.
-/

set_option autoImplicit false

namespace Yargs

/-- Modelled from the spec: typed values produced by the Coercion Engine
(section 4.3).  `vNaN` is the not-a-number sentinel of the numeric
leniency rule; `vUndef` is the undefined value documented for a number
flag given without a value; `vCount` counts flag occurrences. -/
inductive Value where
  | vStr (s : String)
  | vNum (q : Rat)
  | vNaN
  | vBool (b : Bool)
  | vCount (n : Nat)
  | vArr (xs : List String)
  | vUndef
deriving DecidableEq

/-- Modelled from the spec: the declared type of an option
(array/boolean/count/number/string/implicit, section 3). -/
inductive OptType where
  | array
  | boolean
  | count
  | number
  | string
  | implicit
deriving DecidableEq

/-- Modelled from the spec: per-key metadata held by the Schema Registry
(section 3, OptionSpec). -/
structure OptionSpec where
  key : String
  aliases : List String := []
  type : OptType := OptType.implicit
  dflt : Option Value := none
  required : Bool := false
  choices : List Value := []
  nargs : Option Nat := none
  requiresArg : Bool := false
deriving DecidableEq

/-- All names that resolve to this spec: the canonical key and its aliases. -/
def OptionSpec.names (s : OptionSpec) : List String :=
  s.key :: s.aliases

/-- Modelled from the spec: the Schema Registry, built incrementally by
configuration calls (section 4.2). -/
structure Registry where
  specs : List OptionSpec
deriving DecidableEq

/-- The empty registry. -/
def Registry.empty : Registry := ⟨[]⟩

/-- Find the spec that a name (canonical key or alias) resolves to. -/
def findSpec (r : Registry) (n : String) : Option OptionSpec :=
  r.specs.find? (fun s => decide (n ∈ s.names))

/-- Resolve any alias to its canonical key (section 4.2, canonical-key-of). -/
def canonOf (r : Registry) (n : String) : Option String :=
  (findSpec r n).map OptionSpec.key

/-- Find a spec by its canonical key only. -/
def findByKey (r : Registry) (k : String) : Option OptionSpec :=
  r.specs.find? (fun s => decide (s.key = k))

/-- Modelled from the spec: invariant of section 3 — every name (key or
alias) maps to exactly one OptionSpec. -/
def Registry.Uniq (r : Registry) : Prop :=
  ∀ s ∈ r.specs, ∀ t ∈ r.specs, ∀ n : String, n ∈ s.names → n ∈ t.names → s = t

/-! ### Numeric literal parsing (Coercion Engine helper)

Modelled from the spec: decimal, hexadecimal `0x`, and scientific
notation are accepted; anything else is unparseable (section 4.3). -/

/-- Value of a decimal digit list, most significant first. -/
def digitsNat (ds : List Char) : Nat :=
  ds.foldl (fun a c => 10 * a + (c.toNat - 48)) 0

/-- Value of a hexadecimal digit, if the character is one. -/
def hexDigitVal (c : Char) : Option Nat :=
  if c.isDigit then some (c.toNat - 48)
  else if 'a' ≤ c ∧ c ≤ 'f' then some (c.toNat - 87)
  else if 'A' ≤ c ∧ c ≤ 'F' then some (c.toNat - 55)
  else none

/-- Accumulate hexadecimal digits; fails on a non-hex character. -/
def hexGo : List Char → Nat → Option Nat
  | [], acc => some acc
  | c :: cs, acc =>
    match hexDigitVal c with
    | some d => hexGo cs (16 * acc + d)
    | none => none

/-- Parse a nonempty all-decimal-digit list. -/
def parseDigits (cs : List Char) : Option Nat :=
  match cs with
  | [] => none
  | _ => go cs 0
where
  go : List Char → Nat → Option Nat
    | [], acc => some acc
    | c :: cs, acc => if c.isDigit then go cs (10 * acc + (c.toNat - 48)) else none

/-- Apply a scientific-notation exponent suffix to a mantissa. -/
def expApply (m : Rat) (r : List Char) : Option Rat :=
  match r with
  | '+' :: d => (parseDigits d).map (fun e => m * ((10 ^ e : Nat) : Rat))
  | '-' :: d => (parseDigits d).map (fun e => m / ((10 ^ e : Nat) : Rat))
  | d => (parseDigits d).map (fun e => m * ((10 ^ e : Nat) : Rat))

/-- Parse the body of a numeric literal (after an optional sign):
hex `0x...`, or decimal digits with optional fraction and exponent. -/
def parseNumCore (cs : List Char) : Option Rat :=
  match cs with
  | '0' :: 'x' :: rest =>
    match rest with
    | [] => none
    | _ => (hexGo rest 0).map (fun n => ((n : Nat) : Rat))
  | _ =>
    let intDigits := cs.takeWhile Char.isDigit
    let rest1 := cs.dropWhile Char.isDigit
    let fracDigits := match rest1 with
      | '.' :: r => r.takeWhile Char.isDigit
      | _ => []
    let rest2 := match rest1 with
      | '.' :: r => r.dropWhile Char.isDigit
      | _ => rest1
    if intDigits.isEmpty && fracDigits.isEmpty then none
    else
      let m : Rat :=
        ((digitsNat intDigits * 10 ^ fracDigits.length + digitsNat fracDigits : Nat) : Rat) /
          ((10 ^ fracDigits.length : Nat) : Rat)
      match rest2 with
      | [] => some m
      | 'e' :: r => expApply m r
      | 'E' :: r => expApply m r
      | _ => none

/-- Modelled from the spec: parse a raw token as a numeric literal
(decimal, hex, or scientific notation); `none` means unparseable. -/
def parseNum (s : String) : Option Rat :=
  match s.data with
  | '-' :: rest => (parseNumCore rest).map (fun q => -q)
  | '+' :: rest => parseNumCore rest
  | cs => parseNumCore cs

/-- Numeric coercion: unparseable input degrades to the NaN sentinel
rather than failing the parse (spec section 7, numeric leniency). -/
def numericValue (raw : String) : Value :=
  match parseNum raw with
  | some q => Value.vNum q
  | none => Value.vNaN

/-- Default coercion when no type is declared: boolean literal first,
then numeric literal, then string (spec section 4.3). -/
def coerceImplicit (raw : String) : Value :=
  if raw = "true" then Value.vBool true
  else if raw = "false" then Value.vBool false
  else
    match parseNum raw with
    | some q => Value.vNum q
    | none => Value.vStr raw

/-! ### Schema Registry operations (spec section 4.2) -/

/-- Modelled from the spec: the fatal configuration error raised at
registration time (section 7), carrying the offending name. -/
inductive ConfigError where
  | configurationError (name : String)
deriving DecidableEq

/-- A fresh spec holding only a canonical key (implicit creation by
incremental mutators, spec section 4.2). -/
def freshSpec (k : String) : OptionSpec := { key := k }

/-- Canonical key that a registration targeting `k` attaches to: the
canonical key of `k` if `k` is already bound, else `k` itself. -/
def canonTarget (r : Registry) (k : String) : String :=
  ((findSpec r k).map OptionSpec.key).getD k

/-- Create the spec for `k` if no name resolves to it yet. -/
def ensureSpec (r : Registry) (k : String) : Registry :=
  match findSpec r k with
  | some _ => r
  | none => ⟨r.specs ++ [freshSpec k]⟩

/-- Modelled from the spec: merge for re-registration of the same key —
the later call's non-empty fields override the earlier ones
(section 4.2, register-option). -/
def mergeSpec (old new : OptionSpec) : OptionSpec :=
  { key := old.key
    aliases := if new.aliases = [] then old.aliases else new.aliases
    type := match new.type with
      | OptType.implicit => old.type
      | t => t
    dflt := match new.dflt with
      | some v => some v
      | none => old.dflt
    required := new.required || old.required
    choices := if new.choices = [] then old.choices else new.choices
    nargs := match new.nargs with
      | some n => some n
      | none => old.nargs
    requiresArg := new.requiresArg || old.requiresArg }

/-- Modelled from the spec: register-option(spec) — fails with a
ConfigError when a name of the spec is already bound to a different
canonical key; merges idempotently on re-registration (section 4.2). -/
def registerOption (r : Registry) (s : OptionSpec) : Except ConfigError Registry :=
  if ∃ n ∈ s.names, ∃ t ∈ r.specs, n ∈ t.names ∧ t.key ≠ s.key then
    Except.error (ConfigError.configurationError s.key)
  else
    match findByKey r s.key with
    | some _ => Except.ok ⟨r.specs.map (fun t => if t.key = s.key then mergeSpec t s else t)⟩
    | none => Except.ok ⟨r.specs ++ [s]⟩

/-- Modelled from the spec: register-alias(key, alias) — fails with a
ConfigError if the alias is already bound to a different key
(section 4.2). -/
def registerAlias (r : Registry) (k a : String) : Except ConfigError Registry :=
  match findSpec r a with
  | some s =>
    if s.key = canonTarget r k then Except.ok r
    else Except.error (ConfigError.configurationError a)
  | none =>
    let r1 := ensureSpec r k
    let ck := canonTarget r k
    Except.ok ⟨r1.specs.map (fun t => if t.key = ck then { t with aliases := t.aliases ++ [a] } else t)⟩

/-- Update the spec a name resolves to (creating it if needed) with a
field mutator that does not change names. -/
def updateSpec (r : Registry) (k : String) (f : OptionSpec → OptionSpec) : Registry :=
  let r1 := ensureSpec r k
  let ck := canonTarget r k
  ⟨r1.specs.map (fun t => if t.key = ck then f t else t)⟩

/-- Modelled from the spec: set-default incremental mutator (section 4.2). -/
def setDefault (r : Registry) (k : String) (v : Value) : Registry :=
  updateSpec r k (fun s => { s with dflt := some v })

/-- Modelled from the spec: set-choices incremental mutator (section 4.2). -/
def setChoices (r : Registry) (k : String) (cs : List Value) : Registry :=
  updateSpec r k (fun s => { s with choices := cs })

/-- Modelled from the spec: set-required incremental mutator (section 4.2). -/
def setRequired (r : Registry) (k : String) : Registry :=
  updateSpec r k (fun s => { s with required := true })

/-- Registry states reachable from the empty registry through successful
configuration calls (spec lifecycle, section 3). -/
inductive Reachable : Registry → Prop where
  | empty : Reachable Registry.empty
  | opt {r r' : Registry} {s : OptionSpec} :
      Reachable r → registerOption r s = Except.ok r' → Reachable r'
  | aliasStep {r r' : Registry} {k a : String} :
      Reachable r → registerAlias r k a = Except.ok r' → Reachable r'
  | dflt {r : Registry} {k : String} {v : Value} :
      Reachable r → Reachable (setDefault r k v)
  | choices {r : Registry} {k : String} {cs : List Value} :
      Reachable r → Reachable (setChoices r k cs)
  | required {r : Registry} {k : String} :
      Reachable r → Reachable (setRequired r k)

/-! ### Token Lexer (spec section 4.1) -/

/-- Modelled from the spec: output tokens of the lexer (section 4.1). -/
inductive Token where
  | longFlag (name : String) (inlineVal : Option String)
  | shortCluster (chars : List Char)
  | positional (value : String)
  | separator
deriving DecidableEq

/-- Split a long-flag body at the first `=` into name and inline value. -/
def splitEq : List Char → List Char × Option (List Char)
  | [] => ([], none)
  | '=' :: rest => ([], some rest)
  | c :: rest =>
    let p := splitEq rest
    (c :: p.1, p.2)

/-- Does any registered option want numbers (a number-typed flag that
would consume numeric-looking positionals)? -/
def wantsNumbers (r : Registry) : Bool :=
  r.specs.any (fun s => match s.type with
    | OptType.number => true
    | _ => false)

/-- Modelled from the spec: classify one raw token that is not the bare
`--` separator (section 4.1).  `--name=value` splits into name and
inline value; a single-dash multi-character token is a short-flag
cluster unless it parses entirely as a negative number and no flag
consumes numeric-looking positionals. -/
def lexOne (r : Registry) (raw : String) : Token :=
  match raw.data with
  | '-' :: '-' :: rest =>
    let p := splitEq rest
    Token.longFlag (String.mk p.1) (p.2.map String.mk)
  | '-' :: c :: rest =>
    if (parseNum raw).isSome && !(wantsNumbers r) then Token.positional raw
    else Token.shortCluster (c :: rest)
  | _ => Token.positional raw

/-- Modelled from the spec: the lexer walk; the Boolean is pass-through
mode, switched on by a bare `--` token, after which every token is a
positional regardless of leading dashes (section 4.1). -/
def lexGo (r : Registry) : Bool → List String → List Token
  | _, [] => []
  | true, a :: rest => Token.positional a :: lexGo r true rest
  | false, a :: rest =>
    if a = "--" then Token.separator :: lexGo r true rest
    else lexOne r a :: lexGo r false rest

/-- Lex a raw argument vector. -/
def lex (r : Registry) (argv : List String) : List Token :=
  lexGo r false argv

/-! ### Coercion Engine and parse state machine (spec sections 4.3, 4.6) -/

/-- First-match lookup in an association list of values. -/
def lookupL : List (String × Value) → String → Option Value
  | [], _ => none
  | (k, v) :: rest, n => if n = k then some v else lookupL rest n

/-- Remove every binding for a key. -/
def eraseKey (l : List (String × Value)) (k : String) : List (String × Value) :=
  l.filter (fun p => decide (p.1 ≠ k))

/-- Set a key to a value, replacing any previous binding (the result
object holds one binding per key). -/
def setKey (l : List (String × Value)) (k : String) (v : Value) : List (String × Value) :=
  (k, v) :: eraseKey l k

/-- Modelled from the spec: on successful coercion the canonical key and
every alias are set to the identical value (alias transparency,
section 4.3). -/
def setAll (l : List (String × Value)) (names : List String) (v : Value) : List (String × Value) :=
  names.foldl (fun a nm => setKey a nm v) l

/-- The declared type a flag name resolves to; undeclared names use the
implicit default coercion. -/
def typeOf (r : Registry) (n : String) : OptType :=
  match findSpec r n with
  | some s => s.type
  | none => OptType.implicit

/-- The set of result names a flag name writes to: the whole alias set
when declared, just the name itself otherwise. -/
def namesFor (r : Registry) (n : String) : List String :=
  match findSpec r n with
  | some s => s.names
  | none => [n]

/-- Element sequence after appending raw strings to an existing
array value, if any. -/
def arrAppendVal (old : Option Value) (xs : List String) : List String :=
  match old with
  | some (Value.vArr ys) => ys ++ xs
  | _ => xs

/-- Current value of the first name of an alias set, if any. -/
def headLookup (l : List (String × Value)) : List String → Option Value
  | nm :: _ => lookupL l nm
  | [] => none

/-- Append collected raw strings to an array-typed value (multiple
occurrences of an array flag accumulate, spec section 8 round-trip). -/
def appendArr (l : List (String × Value)) (names : List String) (xs : List String) :
    List (String × Value) :=
  setAll l names (Value.vArr (arrAppendVal (headLookup l names) xs))

/-- Current counter of a count-typed flag (0 when unset). -/
def countVal (l : List (String × Value)) (names : List String) : Nat :=
  match headLookup l names with
  | some (Value.vCount n) => n
  | _ => 0

/-- Boolean coercion: presence alone yields true unless an explicit
`=false`-style inline value is given (spec section 4.3). -/
def boolOf (inl : Option String) : Value :=
  if inl = some "false" then Value.vBool false else Value.vBool true

/-- A flag waiting for its value token(s): the alias set it writes, its
type, and the positionals collected so far (array flags). -/
structure Pending where
  names : List String
  ptype : OptType
  collected : List String
deriving DecidableEq

/-- Modelled from the spec: the running state of a parse — coerced flag
assignments, positional values, raw remainder after `--`, a flag
awaiting values, and pass-through mode (sections 4.3, 4.6). -/
structure ParseState where
  assign : List (String × Value) := []
  positionals : List String := []
  rest : List String := []
  pending : Option Pending := none
  afterSep : Bool := false
deriving DecidableEq

/-- Effect of meeting a flag name on assignments and pending state:
booleans and counts coerce immediately and never consume a following
token; number/string/implicit/array flags without an inline value wait
for following positionals when consumption is allowed. -/
def flagEffect (r : Registry) (assign : List (String × Value)) (name : String)
    (inl : Option String) (consume : Bool) :
    List (String × Value) × Option Pending :=
  let names := namesFor r name
  match typeOf r name with
  | OptType.boolean => (setAll assign names (boolOf inl), none)
  | OptType.count => (setAll assign names (Value.vCount (countVal assign names + 1)), none)
  | OptType.number =>
    match inl with
    | some v => (setAll assign names (numericValue v), none)
    | none =>
      if consume then (assign, some ⟨names, OptType.number, []⟩)
      else (setAll assign names Value.vUndef, none)
  | OptType.string =>
    match inl with
    | some v => (setAll assign names (Value.vStr v), none)
    | none =>
      if consume then (assign, some ⟨names, OptType.string, []⟩)
      else (setAll assign names (Value.vBool true), none)
  | OptType.implicit =>
    match inl with
    | some v => (setAll assign names (coerceImplicit v), none)
    | none =>
      if consume then (assign, some ⟨names, OptType.implicit, []⟩)
      else (setAll assign names (Value.vBool true), none)
  | OptType.array =>
    match inl with
    | some v => (appendArr assign names [v], none)
    | none =>
      if consume then (assign, some ⟨names, OptType.array, []⟩)
      else (appendArr assign names [], none)

/-- Start processing a flag in a state whose pending flag has been
finalized. -/
def startFlag (r : Registry) (st : ParseState) (name : String) (inl : Option String)
    (consume : Bool) : ParseState :=
  { st with
    assign := (flagEffect r st.assign name inl consume).1
    pending := (flagEffect r st.assign name inl consume).2 }

/-- Assignment effect of finalizing a pending flag that never received a
value: a number flag becomes undefined, an array flag commits what it
collected, string/implicit flags default to true. -/
def finEffect (assign : List (String × Value)) (p : Pending) : List (String × Value) :=
  match p.ptype with
  | OptType.number => setAll assign p.names Value.vUndef
  | OptType.array => appendArr assign p.names p.collected
  | _ => setAll assign p.names (Value.vBool true)

/-- Finalize the pending flag, if any. -/
def finalizePending (st : ParseState) : ParseState :=
  match st.pending with
  | none => st
  | some p => { st with assign := finEffect st.assign p, pending := none }

/-- Feed a positional token: it is consumed by the pending flag when one
is waiting, and is an ordinary positional otherwise. -/
def feedPositional (st : ParseState) (v : String) : ParseState :=
  match st.pending with
  | none => { st with positionals := st.positionals ++ [v] }
  | some p =>
    match p.ptype with
    | OptType.array =>
      { st with pending := some ⟨p.names, OptType.array, p.collected ++ [v]⟩ }
    | OptType.number =>
      { st with assign := setAll st.assign p.names (numericValue v), pending := none }
    | OptType.string =>
      { st with assign := setAll st.assign p.names (Value.vStr v), pending := none }
    | _ =>
      { st with assign := setAll st.assign p.names (coerceImplicit v), pending := none }

/-- Process a short-flag cluster: every character is a flag; only the
last one may consume a following value token. -/
def clusterChars (r : Registry) (st : ParseState) : List Char → ParseState
  | [] => st
  | [c] => startFlag r st (String.mk [c]) none true
  | c :: cs => clusterChars r (startFlag r st (String.mk [c]) none false) cs

/-- Raw command-line text of a token (used for the remainder after `--`). -/
def rawOf : Token → String
  | Token.positional v => v
  | Token.separator => "--"
  | Token.longFlag n none => "--" ++ n
  | Token.longFlag n (some v) => "--" ++ n ++ "=" ++ v
  | Token.shortCluster cs => "-" ++ String.mk cs

/-- Modelled from the spec: one transition of the parse state machine.
In pass-through mode every token lands in the raw remainder; otherwise
flags finalize the pending flag and start their own coercion, and the
separator switches pass-through mode on (sections 4.1, 4.3). -/
def step (r : Registry) (st : ParseState) (t : Token) : ParseState :=
  if st.afterSep then { st with rest := st.rest ++ [rawOf t] }
  else
    match t with
    | Token.separator => { finalizePending st with afterSep := true }
    | Token.positional v => feedPositional st v
    | Token.longFlag n inl => startFlag r (finalizePending st) n inl true
    | Token.shortCluster cs => clusterChars r (finalizePending st) cs

/-- Run the Coercion Engine over a token sequence. -/
def parseTokens (r : Registry) (ts : List Token) : ParseState :=
  finalizePending (ts.foldl (step r) {})

/-- Lex and coerce a raw argument vector. -/
def parseArgv (r : Registry) (argv : List String) : ParseState :=
  parseTokens r (lex r argv)

/-! ### Result Assembler (spec section 4.6) -/

/-- Overlay every binding of `over` onto `base`; a key present in `over`
fully overrides `base` (first binding of `over` wins on duplicates,
matching lookup order). -/
def mergeInto (base : List (String × Value)) : List (String × Value) → List (String × Value)
  | [] => base
  | (k, v) :: rest => setKey (mergeInto base rest) k v

/-- Declared default of a spec, including the documented implicit
defaults: booleans default to false and counts to 0 when no explicit
default is set. -/
def defaultValueOf (s : OptionSpec) : Option Value :=
  match s.dflt with
  | some v => some v
  | none =>
    match s.type with
    | OptType.boolean => some (Value.vBool false)
    | OptType.count => some (Value.vCount 0)
    | _ => none

/-- Modelled from the spec: the declared-defaults source of the Result
Assembler, written to every alias of each key (sections 4.3, 4.6). -/
def defaultsOf (r : Registry) : List (String × Value) :=
  (r.specs.map (fun s =>
    match defaultValueOf s with
    | some v => s.names.map (fun n => (n, v))
    | none => [])).flatten

/-- Modelled from the spec: merge by fixed precedence, highest to
lowest — command-line values, config-file values, environment-derived
values, declared defaults (section 4.6). -/
def assemble (cli cfg env dfl : List (String × Value)) : List (String × Value) :=
  mergeInto (mergeInto (mergeInto dfl env) cfg) cli

/-- Modelled from the spec: the final argument object — flag values,
ordered positionals, the script identifier, and the raw remainder after
a `--` separator (section 3, ParsedResult). -/
structure ParsedResult where
  assign : List (String × Value)
  positionals : List String
  scriptName : String
  rest : List String
deriving DecidableEq

/-- Assemble the final result for an argument vector, the config-file
mapping, and the environment-derived mapping. -/
def finalResult (r : Registry) (cfg env : List (String × Value)) (script : String)
    (argv : List String) : ParsedResult :=
  let st := parseArgv r argv
  ⟨assemble st.assign cfg env (defaultsOf r), st.positionals, script, st.rest⟩

/-! ### Validator (spec section 4.5) -/

/-- Modelled from the spec: parse-failure kinds reported through the
single failure channel (section 7). -/
inductive ParseError where
  | missingRequired (keys : List String)
  | invalidChoice (keys : List String)
  | arityMismatch
  | conflictingOptions
  | unknownOption (keys : List String)
  | userCheckFailed
  | missingCommand
deriving DecidableEq

/-- Required keys that are absent from the result (spec section 4.5,
check 1). -/
def requiredMissing (r : Registry) (res : ParsedResult) : List String :=
  (r.specs.filter (fun s => s.required && (lookupL res.assign s.key).isNone)).map OptionSpec.key

/-- Does the value held by a spec's key respect its declared choice set?
A key with no declared choices, or no value, passes (spec section 4.5,
check 2). -/
def choiceOk (s : OptionSpec) (res : ParsedResult) : Bool :=
  match lookupL res.assign s.key with
  | some v => decide (s.choices = [] ∨ v ∈ s.choices)
  | none => true

/-- Keys whose values violate their declared choice sets, in
registration order (spec section 4.5, check 2). -/
def choicesViolations (r : Registry) (res : ParsedResult) : List String :=
  (r.specs.filter (fun s => ! choiceOk s res)).map OptionSpec.key

/-- Is a result key unknown: not declared, not aliased, and not
explicitly excepted (spec section 4.5, check 4)? -/
def isUnknown (r : Registry) (excepts : List String) (k : String) : Bool :=
  decide (findSpec r k = none ∧ k ∉ excepts)

/-- The unknown keys of a result, in result order. -/
def unknownKeys (r : Registry) (excepts : List String) (res : ParsedResult) : List String :=
  (res.assign.map Prod.fst).filter (isUnknown r excepts)

/-- Modelled from the spec: the Validator's ordered short-circuiting
checks (section 4.5) — (1) required keys present, (2) choices
membership, then (4) strict-mode unknown-key rejection; with strict
mode off, unknown keys pass through unvalidated.  Checks (3) and (5)
concern implies/conflict relations and user-supplied check callbacks,
configuration that the modelled registry state does not carry, so they
are vacuous on every modelled state. -/
def validate (r : Registry) (strict : Bool) (excepts : List String) (res : ParsedResult) :
    Except ParseError ParsedResult :=
  if !(requiredMissing r res).isEmpty then
    Except.error (ParseError.missingRequired (requiredMissing r res))
  else if !(choicesViolations r res).isEmpty then
    Except.error (ParseError.invalidChoice (choicesViolations r res))
  else if strict && !(unknownKeys r excepts res).isEmpty then
    Except.error (ParseError.unknownOption (unknownKeys r excepts res))
  else Except.ok res

/-- The whole pipeline: lex, coerce, assemble, validate. -/
def runYargs (r : Registry) (strict : Bool) (excepts : List String)
    (cfg env : List (String × Value)) (script : String) (argv : List String) :
    Except ParseError ParsedResult :=
  validate r strict excepts (finalResult r cfg env script argv)

/-! ### Command Resolver (spec section 4.4) -/

/-- Modelled from the spec: a command-pattern segment — a literal word or
a named positional placeholder (section 3, CommandSpec). -/
inductive Seg where
  | lit (s : String)
  | ph (name : String)
deriving DecidableEq

/-- Modelled from the spec: the command tree — each node carries its
pattern segment, an optional handler reference, and child commands
(section 4.4). -/
inductive CmdTree where
  | node (seg : Seg) (handler : Option Nat) (children : List CmdTree)

/-- The handler reference of a node. -/
def CmdTree.handlerOf : CmdTree → Option Nat
  | CmdTree.node _ h _ => h

/-- The children of a node. -/
def CmdTree.childrenOf : CmdTree → List CmdTree
  | CmdTree.node _ _ cs => cs

/-- Does this child's pattern segment literally equal the token? -/
def isLit (c : CmdTree) (t : String) : Bool :=
  match c with
  | CmdTree.node (Seg.lit s) _ _ => decide (s = t)
  | _ => false

/-- Is this child a named-placeholder segment? -/
def isPh (c : CmdTree) : Bool :=
  match c with
  | CmdTree.node (Seg.ph _) _ _ => true
  | _ => false

/-- Modelled from the spec: child selection — literal-segment equality
first; if no literal match, a placeholder child consumes the token
(section 4.4). -/
def findChild (cs : List CmdTree) (t : String) : Option CmdTree :=
  match cs.find? (fun c => isLit c t) with
  | some c => some c
  | none => cs.find? isPh

/-- Outcome of walking the command tree: the final node's handler and
leaf-ness, the placeholder bindings, and the unconsumed tokens. -/
structure ResolveEnd where
  handler : Option Nat
  isLeaf : Bool
  binds : List (String × String)
  leftover : List String
deriving DecidableEq

/-- Modelled from the spec: the state machine over positional tokens —
descend by literal match first, else into a placeholder child binding
its name to the token; stop when no child matches (section 4.4). -/
def resolveGo : List String → CmdTree → List (String × String) → ResolveEnd
  | [], c, binds => ⟨c.handlerOf, c.childrenOf.isEmpty, binds, []⟩
  | t :: ts, c, binds =>
    match findChild c.childrenOf t with
    | some ch =>
      resolveGo ts ch
        (match ch with
         | CmdTree.node (Seg.ph nm) _ _ => binds ++ [(nm, t)]
         | _ => binds)
    | none => ⟨c.handlerOf, c.childrenOf.isEmpty, binds, t :: ts⟩

/-- Resolve from a virtual root whose children are the registered
top-level commands. -/
def resolveRoot (roots : List CmdTree) (toks : List String) : ResolveEnd :=
  resolveGo toks (CmdTree.node (Seg.lit "") none roots) []

/-- Modelled from the spec: strict-mode resolution fails with
MissingCommand unless the final resolved node is a leaf with a handler
(section 4.4). -/
def resolveStrict (roots : List CmdTree) (toks : List String) : Except ParseError ResolveEnd :=
  let e := resolveRoot roots toks
  if e.isLeaf && e.handler.isSome then Except.ok e
  else Except.error ParseError.missingCommand

/-- Demo command tree: the `<name>` placeholder leaf of `serve start <name>`. -/
def nameNode : CmdTree := CmdTree.node (Seg.ph "name") (some 2) []

/-- Demo command tree: the `start` segment of `serve start <name>`. -/
def startNode : CmdTree := CmdTree.node (Seg.lit "start") none [nameNode]

/-- Demo command tree: the `serve` command with its subtree. -/
def serveNode : CmdTree := CmdTree.node (Seg.lit "serve") (some 1) [startNode]

/-- Demo command registry with commands `serve` and `serve start <name>`. -/
def demoCmds : List CmdTree := [serveNode]

/-- Alias transparency invariant on an assignment list: within any
registered alias set, all names hold the same value (spec section 3
invariant on ParsedResult). -/
def AliasInv (r : Registry) (assign : List (String × Value)) : Prop :=
  ∀ s ∈ r.specs, ∀ a ∈ s.names, ∀ b ∈ s.names, lookupL assign a = lookupL assign b

/-- The pending flag's name set is an alias set produced by the registry. -/
def PendOk (r : Registry) (p : Pending) : Prop :=
  ∃ n, p.names = namesFor r n

/-- Full parse-state invariant behind alias transparency. -/
def StInv (r : Registry) (st : ParseState) : Prop :=
  AliasInv r st.assign ∧ ∀ p, st.pending = some p → PendOk r p

/-- Demo registry: a boolean option `verbose` with alias `v`. -/
def demoReg : Registry :=
  ⟨[{ key := "verbose", aliases := ["v"], type := OptType.boolean }]⟩

/-- Demo registry: a number option `count`. -/
def numReg : Registry :=
  ⟨[{ key := "count", type := OptType.number }]⟩

/-- Decidable equality for `Except`, used to evaluate registration and
validation outcomes on concrete inputs. -/
instance {ε α : Type} [DecidableEq ε] [DecidableEq α] : DecidableEq (Except ε α) := fun a b =>
  match a, b with
  | Except.ok x, Except.ok y =>
    if h : x = y then isTrue (by rw [h]) else isFalse (by intro hc; cases hc; exact h rfl)
  | Except.error x, Except.error y =>
    if h : x = y then isTrue (by rw [h]) else isFalse (by intro hc; cases hc; exact h rfl)
  | Except.ok _, Except.error _ => isFalse (by intro hc; cases hc)
  | Except.error _, Except.ok _ => isFalse (by intro hc; cases hc)

/-! ## Lemmas about lookups and assignment updates -/

theorem lookupL_eraseKey {l : List (String × Value)} {k x : String} (h : x ≠ k) :
    lookupL (eraseKey l k) x = lookupL l x := by
  induction l with
  | nil => rfl
  | cons p rest ih =>
    obtain ⟨a, b⟩ := p
    by_cases hp : a = k
    · subst hp
      have he : eraseKey ((a, b) :: rest) a = eraseKey rest a := by
        simp [eraseKey, List.filter]
      rw [he, ih]
      simp [lookupL, h]
    · have he : eraseKey ((a, b) :: rest) k = (a, b) :: eraseKey rest k := by
        simp [eraseKey, List.filter, hp]
      rw [he]
      simp only [lookupL]
      by_cases hx : x = a
      · simp [hx]
      · simp [hx, ih]

theorem lookupL_setKey (l : List (String × Value)) (k x : String) (v : Value) :
    lookupL (setKey l k v) x = if x = k then some v else lookupL l x := by
  by_cases h : x = k
  · simp [setKey, lookupL, h]
  · simp [setKey, lookupL, h, lookupL_eraseKey h]

theorem lookupL_setAll (l : List (String × Value)) (names : List String) (v : Value)
    (x : String) :
    lookupL (setAll l names v) x = if x ∈ names then some v else lookupL l x := by
  induction names generalizing l with
  | nil => simp [setAll]
  | cons nm rest ih =>
    have hstep : setAll l (nm :: rest) v = setAll (setKey l nm v) rest v := rfl
    rw [hstep, ih]
    by_cases hr : x ∈ rest
    · simp [hr, List.mem_cons]
    · by_cases hn : x = nm
      · simp [hr, hn, lookupL_setKey]
      · simp [hr, hn, lookupL_setKey, List.mem_cons]

theorem lookupL_appendArr (l : List (String × Value)) (names : List String)
    (xs : List String) (x : String) (hx : x ∈ names) :
    ∃ ys, lookupL (appendArr l names xs) x = some (Value.vArr ys) := by
  unfold appendArr
  refine ⟨arrAppendVal (headLookup l names) xs, ?_⟩
  rw [lookupL_setAll, if_pos hx]

theorem lookupL_append (l1 l2 : List (String × Value)) (x : String) :
    lookupL (l1 ++ l2) x =
      match lookupL l1 x with
      | some v => some v
      | none => lookupL l2 x := by
  induction l1 with
  | nil => simp [lookupL]
  | cons p rest ih =>
    cases p with
    | mk a b =>
      by_cases hx : x = a
      · simp [lookupL, hx]
      · simp [lookupL, hx, ih]

theorem lookupL_mergeInto_some {over : List (String × Value)} (base : List (String × Value))
    {x : String} {v : Value} (h : lookupL over x = some v) :
    lookupL (mergeInto base over) x = some v := by
  induction over with
  | nil => simp [lookupL] at h
  | cons p rest ih =>
    obtain ⟨a, b⟩ := p
    have hm : mergeInto base ((a, b) :: rest) = setKey (mergeInto base rest) a b := rfl
    have hh : lookupL ((a, b) :: rest) x = if x = a then some b else lookupL rest x := rfl
    rw [hh] at h
    rw [hm, lookupL_setKey]
    by_cases hx : x = a
    · rw [if_pos hx] at h ⊢
      exact h
    · rw [if_neg hx] at h ⊢
      exact ih h

theorem lookupL_mergeInto_none {over : List (String × Value)} (base : List (String × Value))
    {x : String} (h : lookupL over x = none) :
    lookupL (mergeInto base over) x = lookupL base x := by
  induction over with
  | nil => rfl
  | cons p rest ih =>
    obtain ⟨a, b⟩ := p
    have hm : mergeInto base ((a, b) :: rest) = setKey (mergeInto base rest) a b := rfl
    have hh : lookupL ((a, b) :: rest) x = if x = a then some b else lookupL rest x := rfl
    rw [hh] at h
    rw [hm, lookupL_setKey]
    by_cases hx : x = a
    · rw [if_pos hx] at h
      simp at h
    · rw [if_neg hx] at h ⊢
      exact ih h

/-! ## Lemmas about registry lookup -/

theorem findSpec_some {r : Registry} {n : String} {s : OptionSpec}
    (h : findSpec r n = some s) : s ∈ r.specs ∧ n ∈ s.names := by
  refine ⟨List.mem_of_find?_eq_some h, ?_⟩
  have := List.find?_some h
  simpa using this

theorem findSpec_none {r : Registry} {n : String} (h : findSpec r n = none) :
    ∀ s ∈ r.specs, n ∉ s.names := by
  intro s hs
  have := List.find?_eq_none.mp h s hs
  simpa using this

theorem findSpec_of_mem {r : Registry} (hU : r.Uniq) {s : OptionSpec} {n : String}
    (hs : s ∈ r.specs) (hn : n ∈ s.names) : findSpec r n = some s := by
  cases h : findSpec r n with
  | none => exact absurd hn (findSpec_none h s hs)
  | some t =>
    obtain ⟨ht, hnt⟩ := findSpec_some h
    rw [hU t ht s hs n hnt hn]

/-! ## C2: Result Assembler precedence -/

/-- C2: For every key, the merged result takes the value from the
highest-precedence source that provides it, in the fixed order
command-line, config-file, environment, declared default; a
higher source fully overrides lower ones.  With all four present the
command-line value wins; with only default and env present the env
value wins. -/
theorem merge_precedence :
    (∀ (cli cfg env dfl : List (String × Value)) (k : String) (v : Value),
      lookupL cli k = some v → lookupL (assemble cli cfg env dfl) k = some v) ∧
    (∀ (cli cfg env dfl : List (String × Value)) (k : String) (v : Value),
      lookupL cli k = none → lookupL cfg k = some v →
        lookupL (assemble cli cfg env dfl) k = some v) ∧
    (∀ (cli cfg env dfl : List (String × Value)) (k : String) (v : Value),
      lookupL cli k = none → lookupL cfg k = none → lookupL env k = some v →
        lookupL (assemble cli cfg env dfl) k = some v) ∧
    (∀ (cli cfg env dfl : List (String × Value)) (k : String),
      lookupL cli k = none → lookupL cfg k = none → lookupL env k = none →
        lookupL (assemble cli cfg env dfl) k = lookupL dfl k) ∧
    lookupL (assemble [("k", Value.vNum 4)] [("k", Value.vNum 3)] [("k", Value.vNum 2)]
      [("k", Value.vNum 1)]) "k" = some (Value.vNum 4) ∧
    lookupL (assemble [] [] [("k", Value.vNum 2)] [("k", Value.vNum 1)]) "k" =
      some (Value.vNum 2) := by
  refine ⟨?_, ?_, ?_, ?_, ?_, ?_⟩
  · intro cli cfg env dfl k v h
    exact lookupL_mergeInto_some _ h
  · intro cli cfg env dfl k v h1 h2
    unfold assemble
    rw [lookupL_mergeInto_none _ h1]
    exact lookupL_mergeInto_some _ h2
  · intro cli cfg env dfl k v h1 h2 h3
    unfold assemble
    rw [lookupL_mergeInto_none _ h1, lookupL_mergeInto_none _ h2]
    exact lookupL_mergeInto_some _ h3
  · intro cli cfg env dfl k h1 h2 h3
    unfold assemble
    rw [lookupL_mergeInto_none _ h1, lookupL_mergeInto_none _ h2,
      lookupL_mergeInto_none _ h3]
  · decide
  · decide

/-- Witness for C2 at a concrete input: a command-line binding overrides
everything below it. -/
theorem merge_precedence_w :
    lookupL (assemble [("a", Value.vBool true)] [("a", Value.vBool false)] [] []) "a" =
      some (Value.vBool true) :=
  merge_precedence.1 [("a", Value.vBool true)] [("a", Value.vBool false)] [] [] "a"
    (Value.vBool true) (by decide)

/-! ## State-machine bookkeeping lemmas -/

@[simp] theorem startFlag_rest (r : Registry) (st : ParseState) (n : String)
    (i : Option String) (c : Bool) : (startFlag r st n i c).rest = st.rest := rfl

@[simp] theorem startFlag_afterSep (r : Registry) (st : ParseState) (n : String)
    (i : Option String) (c : Bool) : (startFlag r st n i c).afterSep = st.afterSep := rfl

@[simp] theorem startFlag_positionals (r : Registry) (st : ParseState) (n : String)
    (i : Option String) (c : Bool) : (startFlag r st n i c).positionals = st.positionals := rfl

@[simp] theorem finalizePending_rest (st : ParseState) :
    (finalizePending st).rest = st.rest := by
  cases hp : st.pending <;> simp [finalizePending, hp]

@[simp] theorem finalizePending_afterSep (st : ParseState) :
    (finalizePending st).afterSep = st.afterSep := by
  cases hp : st.pending <;> simp [finalizePending, hp]

@[simp] theorem finalizePending_positionals (st : ParseState) :
    (finalizePending st).positionals = st.positionals := by
  cases hp : st.pending <;> simp [finalizePending, hp]

@[simp] theorem feedPositional_rest (st : ParseState) (v : String) :
    (feedPositional st v).rest = st.rest := by
  cases hp : st.pending with
  | none => simp [feedPositional, hp]
  | some p =>
    obtain ⟨ns, pt, col⟩ := p
    cases pt <;> simp [feedPositional, hp]

@[simp] theorem feedPositional_afterSep (st : ParseState) (v : String) :
    (feedPositional st v).afterSep = st.afterSep := by
  cases hp : st.pending with
  | none => simp [feedPositional, hp]
  | some p =>
    obtain ⟨ns, pt, col⟩ := p
    cases pt <;> simp [feedPositional, hp]

@[simp] theorem clusterChars_rest (r : Registry) (cs : List Char) :
    ∀ st : ParseState, (clusterChars r st cs).rest = st.rest := by
  induction cs with
  | nil => intro st; rfl
  | cons c cs ih =>
    intro st
    cases cs with
    | nil => simp [clusterChars]
    | cons c2 cs2 =>
      have hc : clusterChars r st (c :: c2 :: cs2) =
          clusterChars r (startFlag r st (String.mk [c]) none false) (c2 :: cs2) := rfl
      rw [hc, ih]
      rfl

@[simp] theorem clusterChars_afterSep (r : Registry) (cs : List Char) :
    ∀ st : ParseState, (clusterChars r st cs).afterSep = st.afterSep := by
  induction cs with
  | nil => intro st; rfl
  | cons c cs ih =>
    intro st
    cases cs with
    | nil => simp [clusterChars]
    | cons c2 cs2 =>
      have hc : clusterChars r st (c :: c2 :: cs2) =
          clusterChars r (startFlag r st (String.mk [c]) none false) (c2 :: cs2) := rfl
      rw [hc, ih]
      rfl

theorem step_preserve {r : Registry} {st : ParseState} {t : Token}
    (ht : t ≠ Token.separator) (hs : st.afterSep = false) :
    (step r st t).afterSep = false ∧ (step r st t).rest = st.rest := by
  cases t with
  | separator => exact absurd rfl ht
  | positional v => simp [step, hs]
  | longFlag n i => simp [step, hs]
  | shortCluster cs => simp [step, hs]

theorem foldl_noSep (r : Registry) :
    ∀ (ts : List Token) (st : ParseState), Token.separator ∉ ts → st.afterSep = false →
      ((ts.foldl (step r) st).afterSep = false ∧ (ts.foldl (step r) st).rest = st.rest) := by
  intro ts
  induction ts with
  | nil => intro st _ hs; exact ⟨hs, rfl⟩
  | cons t ts ih =>
    intro st hmem hs
    have ht : t ≠ Token.separator := fun he => hmem (by simp [he])
    have hts : Token.separator ∉ ts := fun hm => hmem (List.mem_cons_of_mem t hm)
    obtain ⟨hA, hR⟩ := step_preserve ht hs
    have := ih (step r st t) hts hA
    exact ⟨this.1, this.2.trans hR⟩

theorem foldl_afterSep (r : Registry) :
    ∀ (ts : List Token) (st : ParseState), st.afterSep = true →
      ts.foldl (step r) st = { st with rest := st.rest ++ ts.map rawOf } := by
  intro ts
  induction ts with
  | nil => intro st _; simp
  | cons t ts ih =>
    intro st hs
    have hstep : step r st t = { st with rest := st.rest ++ [rawOf t] } := by
      simp [step, hs]
    have hfold : (t :: ts).foldl (step r) st = ts.foldl (step r) (step r st t) := rfl
    rw [hfold, hstep, ih { st with rest := st.rest ++ [rawOf t] } hs]
    simp

/-! ## Lexer lemmas -/

theorem lexGo_true (r : Registry) (l : List String) :
    lexGo r true l = l.map Token.positional := by
  induction l with
  | nil => rfl
  | cons a rest ih => simp [lexGo, ih]

theorem lexOne_ne_sep (r : Registry) (a : String) : lexOne r a ≠ Token.separator := by
  unfold lexOne
  split
  · simp
  · split <;> simp
  · simp

theorem sep_not_mem_lex (r : Registry) : ∀ {l : List String}, "--" ∉ l →
    Token.separator ∉ lexGo r false l := by
  intro l
  induction l with
  | nil => intro _ h; simp [lexGo] at h
  | cons a rest ih =>
    intro hmem hcon
    have ha : ¬(a = "--") := fun he => hmem (by simp [he])
    rw [show lexGo r false (a :: rest) = lexOne r a :: lexGo r false rest by
        simp [lexGo, ha]] at hcon
    rcases List.mem_cons.mp hcon with h1 | h2
    · exact lexOne_ne_sep r a h1.symm
    · exact ih (fun hm => hmem (List.mem_cons_of_mem a hm)) h2

theorem lexGo_append (r : Registry) {pre : List String} (post : List String)
    (h : "--" ∉ pre) :
    lexGo r false (pre ++ "--" :: post) =
      lexGo r false pre ++ Token.separator :: post.map Token.positional := by
  induction pre with
  | nil => simp [lexGo, lexGo_true]
  | cons a rest ih =>
    have ha : ¬(a = "--") := fun he => h (by simp [he])
    have hr : "--" ∉ rest := fun hm => h (List.mem_cons_of_mem a hm)
    simp only [List.cons_append]
    rw [show lexGo r false (a :: (rest ++ "--" :: post)) =
        lexOne r a :: lexGo r false (rest ++ "--" :: post) by simp [lexGo, ha]]
    rw [show lexGo r false (a :: rest) = lexOne r a :: lexGo r false rest by
        simp [lexGo, ha]]
    rw [ih hr]
    rfl

@[simp] theorem rawOf_positional (v : String) : rawOf (Token.positional v) = v := rfl

theorem parseTokens_rest_after_sep (r : Registry) (ms : List Token) (post : List String)
    (h : Token.separator ∉ ms) :
    (parseTokens r (ms ++ Token.separator :: post.map Token.positional)).rest = post := by
  unfold parseTokens
  rw [List.foldl_append]
  obtain ⟨hA, hR⟩ := foldl_noSep r ms {} h rfl
  have hstep : (Token.separator :: post.map Token.positional).foldl (step r)
      (ms.foldl (step r) {})
      = (post.map Token.positional).foldl (step r)
        (step r (ms.foldl (step r) {}) Token.separator) := rfl
  rw [hstep]
  have hsep : step r (ms.foldl (step r) {}) Token.separator =
      { finalizePending (ms.foldl (step r) {}) with afterSep := true } := by
    simp [step, hA]
  rw [hsep, foldl_afterSep r _ _ rfl]
  simp [hR, List.map_map]
  have : (rawOf ∘ Token.positional) = id := by
    funext v
    rfl
  simp [this]

/-! ## C8: pass-through lexing -/

/-- C8: Once a bare `--` token is encountered, the lexer classifies every
subsequent token as a positional regardless of leading dashes, and the
assembled result carries that raw remainder sequence. -/
theorem pass_through_lexing (r : Registry) (pre post : List String) (h : "--" ∉ pre) :
    lex r (pre ++ "--" :: post) = lex r pre ++ Token.separator :: post.map Token.positional ∧
    (parseArgv r (pre ++ "--" :: post)).rest = post := by
  constructor
  · exact lexGo_append r post h
  · unfold parseArgv lex
    rw [lexGo_append r post h]
    exact parseTokens_rest_after_sep r _ post (sep_not_mem_lex r h)

/-- Witness for C8 at a concrete input: tokens after `--` stay raw. -/
theorem pass_through_lexing_w :
    lex Registry.empty (["x"] ++ "--" :: ["-y", "--z"]) =
      lex Registry.empty ["x"] ++ Token.separator :: ["-y", "--z"].map Token.positional ∧
    (parseArgv Registry.empty (["x"] ++ "--" :: ["-y", "--z"])).rest = ["-y", "--z"] :=
  pass_through_lexing Registry.empty ["x"] ["-y", "--z"] (by decide)

/-! ## C1: alias transparency -/

theorem namesFor_mem_iff {r : Registry} (hU : r.Uniq) {s : OptionSpec} (hs : s ∈ r.specs)
    {a b : String} (ha : a ∈ s.names) (hb : b ∈ s.names) (n : String) :
    a ∈ namesFor r n ↔ b ∈ namesFor r n := by
  unfold namesFor
  cases hf : findSpec r n with
  | some t =>
    obtain ⟨ht, _⟩ := findSpec_some hf
    show a ∈ t.names ↔ b ∈ t.names
    constructor
    · intro hat
      have hts : t = s := hU t ht s hs a hat ha
      exact hts ▸ hb
    · intro hbt
      have hts : t = s := hU t ht s hs b hbt hb
      exact hts ▸ ha
  | none =>
    show a ∈ [n] ↔ b ∈ [n]
    constructor
    · intro hat
      have han : a = n := by simpa using hat
      exact absurd (han ▸ ha) (findSpec_none hf s hs)
    · intro hbt
      have hbn : b = n := by simpa using hbt
      exact absurd (hbn ▸ hb) (findSpec_none hf s hs)

theorem setAll_aliasInv {r : Registry} (hU : r.Uniq) {assign : List (String × Value)}
    (h : AliasInv r assign) (n : String) (v : Value) :
    AliasInv r (setAll assign (namesFor r n) v) := by
  intro s hs a ha b hb
  rw [lookupL_setAll, lookupL_setAll]
  by_cases hm : a ∈ namesFor r n
  · rw [if_pos hm, if_pos ((namesFor_mem_iff hU hs ha hb n).mp hm)]
  · rw [if_neg hm, if_neg (fun hbm => hm ((namesFor_mem_iff hU hs ha hb n).mpr hbm))]
    exact h s hs a ha b hb

theorem appendArr_aliasInv {r : Registry} (hU : r.Uniq) {assign : List (String × Value)}
    (h : AliasInv r assign) (n : String) (xs : List String) :
    AliasInv r (appendArr assign (namesFor r n) xs) := by
  unfold appendArr
  exact setAll_aliasInv hU h n _

theorem flagEffect_inv {r : Registry} (hU : r.Uniq) {assign : List (String × Value)}
    (h : AliasInv r assign) (name : String) (inl : Option String) (consume : Bool) :
    AliasInv r (flagEffect r assign name inl consume).1 ∧
    (∀ p, (flagEffect r assign name inl consume).2 = some p → PendOk r p) := by
  cases inl with
  | some v =>
    cases htype : typeOf r name <;>
      simp only [flagEffect, htype] <;>
      exact ⟨by first
              | exact setAll_aliasInv hU h name _
              | exact appendArr_aliasInv hU h name _,
             fun p hp => by cases hp⟩
  | none =>
    cases consume with
    | false =>
      cases htype : typeOf r name <;>
        simp only [flagEffect, htype, Bool.false_eq_true, if_false] <;>
        exact ⟨by first
                | exact setAll_aliasInv hU h name _
                | exact appendArr_aliasInv hU h name _,
               fun p hp => by cases hp⟩
    | true =>
      cases htype : typeOf r name <;>
        simp only [flagEffect, htype, if_true] <;>
        first
          | exact ⟨setAll_aliasInv hU h name _, fun p hp => by cases hp⟩
          | exact ⟨h, fun p hp => by cases hp; exact ⟨name, rfl⟩⟩

theorem startFlag_inv {r : Registry} (hU : r.Uniq) {st : ParseState} (h : StInv r st)
    (name : String) (inl : Option String) (consume : Bool) :
    StInv r (startFlag r st name inl consume) := by
  obtain ⟨hf1, hf2⟩ := flagEffect_inv hU h.1 name inl consume
  exact ⟨hf1, hf2⟩

theorem finalizePending_inv {r : Registry} (hU : r.Uniq) {st : ParseState}
    (h : StInv r st) : StInv r (finalizePending st) := by
  obtain ⟨h1, h2⟩ := h
  cases hp : st.pending with
  | none =>
    unfold finalizePending
    rw [hp]
    exact ⟨h1, fun p hq => h2 p hq⟩
  | some p =>
    obtain ⟨n, hn⟩ := h2 p hp
    unfold finalizePending
    rw [hp]
    refine ⟨?_, fun q hq => by cases hq⟩
    show AliasInv r (finEffect st.assign p)
    obtain ⟨ns, pt, col⟩ := p
    simp only [Pending.mk.injEq] at hn ⊢
    cases pt <;>
      simp only [finEffect] <;>
      rw [show ns = namesFor r n from hn] <;>
      first
        | exact setAll_aliasInv hU h1 n _
        | exact appendArr_aliasInv hU h1 n _

theorem feedPositional_inv {r : Registry} (hU : r.Uniq) {st : ParseState}
    (h : StInv r st) (v : String) : StInv r (feedPositional st v) := by
  obtain ⟨h1, h2⟩ := h
  cases hp : st.pending with
  | none =>
    have he : feedPositional st v = { st with positionals := st.positionals ++ [v] } := by
      simp [feedPositional, hp]
    rw [he]
    exact ⟨h1, fun p hq => h2 p hq⟩
  | some p =>
    obtain ⟨n, hn⟩ := h2 p hp
    obtain ⟨ns, pt, col⟩ := p
    simp only at hn
    cases pt with
    | array =>
      have he : feedPositional st v =
          { st with pending := some ⟨ns, OptType.array, col ++ [v]⟩ } := by
        simp [feedPositional, hp]
      rw [he]
      exact ⟨h1, fun q hq => by cases hq; exact ⟨n, hn⟩⟩
    | number =>
      have he : feedPositional st v =
          { st with assign := setAll st.assign ns (numericValue v), pending := none } := by
        simp [feedPositional, hp]
      rw [he]
      exact ⟨by rw [show ns = namesFor r n from hn]; exact setAll_aliasInv hU h1 n _,
             fun q hq => by cases hq⟩
    | string =>
      have he : feedPositional st v =
          { st with assign := setAll st.assign ns (Value.vStr v), pending := none } := by
        simp [feedPositional, hp]
      rw [he]
      exact ⟨by rw [show ns = namesFor r n from hn]; exact setAll_aliasInv hU h1 n _,
             fun q hq => by cases hq⟩
    | boolean =>
      have he : feedPositional st v =
          { st with assign := setAll st.assign ns (coerceImplicit v), pending := none } := by
        simp [feedPositional, hp]
      rw [he]
      exact ⟨by rw [show ns = namesFor r n from hn]; exact setAll_aliasInv hU h1 n _,
             fun q hq => by cases hq⟩
    | count =>
      have he : feedPositional st v =
          { st with assign := setAll st.assign ns (coerceImplicit v), pending := none } := by
        simp [feedPositional, hp]
      rw [he]
      exact ⟨by rw [show ns = namesFor r n from hn]; exact setAll_aliasInv hU h1 n _,
             fun q hq => by cases hq⟩
    | implicit =>
      have he : feedPositional st v =
          { st with assign := setAll st.assign ns (coerceImplicit v), pending := none } := by
        simp [feedPositional, hp]
      rw [he]
      exact ⟨by rw [show ns = namesFor r n from hn]; exact setAll_aliasInv hU h1 n _,
             fun q hq => by cases hq⟩

theorem clusterChars_inv {r : Registry} (hU : r.Uniq) (cs : List Char) :
    ∀ {st : ParseState}, StInv r st → StInv r (clusterChars r st cs) := by
  induction cs with
  | nil => intro st h; exact h
  | cons c cs ih =>
    intro st h
    cases cs with
    | nil => exact startFlag_inv hU h (String.mk [c]) none true
    | cons c2 cs2 =>
      have hc : clusterChars r st (c :: c2 :: cs2) =
          clusterChars r (startFlag r st (String.mk [c]) none false) (c2 :: cs2) := rfl
      rw [hc]
      exact ih (startFlag_inv hU h (String.mk [c]) none false)

theorem step_inv {r : Registry} (hU : r.Uniq) {st : ParseState} (h : StInv r st)
    (t : Token) : StInv r (step r st t) := by
  cases hs : st.afterSep with
  | true =>
    simp only [step, hs, if_true]
    exact ⟨h.1, fun p hp => h.2 p hp⟩
  | false =>
    simp only [step, hs, Bool.false_eq_true, if_false]
    cases t with
    | separator =>
      have := finalizePending_inv hU h
      exact ⟨this.1, fun p hp => this.2 p hp⟩
    | positional v => exact feedPositional_inv hU h v
    | longFlag n i => exact startFlag_inv hU (finalizePending_inv hU h) n i true
    | shortCluster cs => exact clusterChars_inv hU cs (finalizePending_inv hU h)

theorem foldl_stInv {r : Registry} (hU : r.Uniq) :
    ∀ (ts : List Token) {st : ParseState}, StInv r st → StInv r (ts.foldl (step r) st) := by
  intro ts
  induction ts with
  | nil => intro st h; exact h
  | cons t ts ih => intro st h; exact ih (step_inv hU h t)

theorem parseTokens_aliasInv (r : Registry) (hU : r.Uniq) (ts : List Token) :
    AliasInv r (parseTokens r ts).assign := by
  have hinit : StInv r {} := by
    constructor
    · intro s _ a _ b _
      rfl
    · intro p hp
      cases hp
  exact (finalizePending_inv hU (foldl_stInv hU ts hinit)).1

/-- C1: For every registered alias set and every parse whose result
assigns a value v to one name in the set, the parsed result assigns the
identical value v to the canonical key and every other alias in the set. -/
theorem alias_transparency (r : Registry) (hU : r.Uniq) (argv : List String)
    (s : OptionSpec) (hs : s ∈ r.specs) (a b : String) (ha : a ∈ s.names)
    (hb : b ∈ s.names) (v : Value)
    (hv : lookupL (parseArgv r argv).assign a = some v) :
    lookupL (parseArgv r argv).assign b = some v := by
  have h := parseTokens_aliasInv r hU (lex r argv) s hs a ha b hb
  unfold parseArgv at hv ⊢
  rw [← h]
  exact hv

/-- Witness for C1 at a concrete input: `--verbose` also sets the alias
`v` to the identical value. -/
theorem alias_transparency_w :
    lookupL (parseArgv demoReg ["--verbose"]).assign "v" = some (Value.vBool true) :=
  alias_transparency demoReg (by unfold Registry.Uniq; decide) ["--verbose"]
    { key := "verbose", aliases := ["v"], type := OptType.boolean }
    (by unfold demoReg; exact List.mem_cons_self _ _) "verbose" "v" (by decide) (by decide)
    (Value.vBool true) (by decide)

/-! ## C3: strict mode -/

/-- C3: With strict mode enabled, a flag key that is not declared,
aliased, or explicitly excepted causes an UnknownOption validation
failure naming it; with strict mode disabled, the same key appears in
the result unvalidated and no failure is raised.  The hypotheses rule
out the validator checks the spec orders before the strict check:
no required key is missing and no declared choice set is violated. -/
theorem strict_mode_unknown (r : Registry) (excepts : List String)
    (cfg env : List (String × Value)) (script : String) (argv : List String) (k : String)
    (hk : k ∈ (finalResult r cfg env script argv).assign.map Prod.fst)
    (hdecl : findSpec r k = none) (hexc : k ∉ excepts)
    (hreq : requiredMissing r (finalResult r cfg env script argv) = [])
    (hcho : choicesViolations r (finalResult r cfg env script argv) = []) :
    (∃ bad, runYargs r true excepts cfg env script argv =
        Except.error (ParseError.unknownOption bad) ∧ k ∈ bad) ∧
    runYargs r false excepts cfg env script argv =
      Except.ok (finalResult r cfg env script argv) := by
  have hkb : isUnknown r excepts k = true := by
    simp [isUnknown, hdecl, hexc]
  have hmem : k ∈ unknownKeys r excepts (finalResult r cfg env script argv) := by
    unfold unknownKeys
    exact List.mem_filter.mpr ⟨hk, hkb⟩
  have hne : (unknownKeys r excepts (finalResult r cfg env script argv)).isEmpty = false := by
    cases hu : unknownKeys r excepts (finalResult r cfg env script argv) with
    | nil => rw [hu] at hmem; cases hmem
    | cons x xs => rfl
  constructor
  · refine ⟨unknownKeys r excepts (finalResult r cfg env script argv), ?_, hmem⟩
    unfold runYargs validate
    rw [hreq, hcho, hne]
    simp
  · unfold runYargs validate
    rw [hreq, hcho]
    simp

/-- Witness for C3 at a concrete input: the unregistered flag `--bogus`. -/
theorem strict_mode_unknown_w :
    (∃ bad, runYargs Registry.empty true [] [] [] "" ["--bogus"] =
        Except.error (ParseError.unknownOption bad) ∧ "bogus" ∈ bad) ∧
    runYargs Registry.empty false [] [] [] "" ["--bogus"] =
      Except.ok (finalResult Registry.empty [] [] "" ["--bogus"]) :=
  strict_mode_unknown Registry.empty [] [] [] "" ["--bogus"] "bogus" (by decide) (by decide)
    (by decide) (by decide) (by decide)

/-! ## C4 and C9: numeric coercion behavior -/

theorem mem_namesFor_self {r : Registry} {k : String} {s : OptionSpec}
    (hf : findSpec r k = some s) : k ∈ namesFor r k := by
  unfold namesFor
  rw [hf]
  exact (findSpec_some hf).2

theorem step_longFlag_number {r : Registry} {st : ParseState} {k : String}
    (hA : st.afterSep = false) (htk : typeOf r k = OptType.number) :
    step r st (Token.longFlag k none) =
      { finalizePending st with pending := some ⟨namesFor r k, OptType.number, []⟩ } := by
  have h2 : step r st (Token.longFlag k none) = startFlag r (finalizePending st) k none true := by
    simp [step, hA]
  rw [h2]
  unfold startFlag
  rw [show flagEffect r (finalizePending st).assign k none true =
      ((finalizePending st).assign, some ⟨namesFor r k, OptType.number, []⟩) by
    simp [flagEffect, htk]]

/-- C9: For a key declared with type number, giving the flag on the
command line without any value token populates the key with the
undefined value — which is distinct from the NaN sentinel — rather than
raising a failure. -/
theorem number_without_value (r : Registry) (k : String) (s : OptionSpec)
    (hf : findSpec r k = some s) (ht : s.type = OptType.number) (ts : List Token)
    (hsep : Token.separator ∉ ts) :
    lookupL (parseTokens r (ts ++ [Token.longFlag k none])).assign k = some Value.vUndef ∧
    Value.vUndef ≠ Value.vNaN := by
  refine ⟨?_, by decide⟩
  unfold parseTokens
  rw [List.foldl_append]
  have hA : (ts.foldl (step r) {}).afterSep = false := (foldl_noSep r ts {} hsep rfl).1
  have htk : typeOf r k = OptType.number := by simp [typeOf, hf, ht]
  have h1 : [Token.longFlag k none].foldl (step r) (ts.foldl (step r) {}) =
      step r (ts.foldl (step r) {}) (Token.longFlag k none) := rfl
  rw [h1, step_longFlag_number hA htk]
  rw [show finalizePending { finalizePending (ts.foldl (step r) {}) with
      pending := some (⟨namesFor r k, OptType.number, []⟩ : Pending) } =
      { finalizePending (ts.foldl (step r) {}) with
        assign := setAll (finalizePending (ts.foldl (step r) {})).assign
          (namesFor r k) Value.vUndef,
        pending := none } by simp [finalizePending, finEffect]]
  show lookupL (setAll _ (namesFor r k) Value.vUndef) k = some Value.vUndef
  rw [lookupL_setAll, if_pos (mem_namesFor_self hf)]

/-- Witness for C9 at a concrete input: `--count` at the end of the
argument vector. -/
theorem number_without_value_w :
    lookupL (parseTokens numReg ([] ++ [Token.longFlag "count" none])).assign "count" =
      some Value.vUndef ∧
    Value.vUndef ≠ Value.vNaN :=
  number_without_value numReg "count" { key := "count", type := OptType.number }
    (by decide) (by decide) [] (by decide)

/-- C4: For a key declared with type number and a raw token that cannot
be parsed as a numeric literal, coercion yields the NaN sentinel in the
result rather than raising a parse failure; a non-strict parse still
succeeds as a whole — the NaN value opens no failure path of its own,
so validation succeeds whenever the spec's earlier ordered checks
(required keys, choices membership) have nothing to report. -/
theorem numeric_leniency (r : Registry) (k w : String) (s : OptionSpec)
    (hf : findSpec r k = some s) (ht : s.type = OptType.number)
    (hw : parseNum w = none) (ts : List Token) (hsep : Token.separator ∉ ts) :
    lookupL (parseTokens r (ts ++ [Token.longFlag k none, Token.positional w])).assign k =
      some Value.vNaN ∧
    (∀ (res : ParsedResult) (excepts : List String), requiredMissing r res = [] →
      choicesViolations r res = [] →
      validate r false excepts res = Except.ok res) := by
  constructor
  · unfold parseTokens
    rw [List.foldl_append]
    have hA : (ts.foldl (step r) {}).afterSep = false := (foldl_noSep r ts {} hsep rfl).1
    have htk : typeOf r k = OptType.number := by simp [typeOf, hf, ht]
    have h1 : [Token.longFlag k none, Token.positional w].foldl (step r)
        (ts.foldl (step r) {}) =
        step r (step r (ts.foldl (step r) {}) (Token.longFlag k none)) (Token.positional w) :=
      rfl
    rw [h1, step_longFlag_number hA htk]
    rw [show step r { finalizePending (ts.foldl (step r) {}) with
        pending := some (⟨namesFor r k, OptType.number, []⟩ : Pending) }
        (Token.positional w) =
        { finalizePending (ts.foldl (step r) {}) with
          assign := setAll (finalizePending (ts.foldl (step r) {})).assign
            (namesFor r k) (numericValue w),
          pending := none } by
      simp [step, feedPositional, hA]]
    rw [show numericValue w = Value.vNaN by simp [numericValue, hw]]
    rw [show finalizePending { finalizePending (ts.foldl (step r) {}) with
        assign := setAll (finalizePending (ts.foldl (step r) {})).assign
          (namesFor r k) Value.vNaN,
        pending := none } =
        { finalizePending (ts.foldl (step r) {}) with
          assign := setAll (finalizePending (ts.foldl (step r) {})).assign
            (namesFor r k) Value.vNaN,
          pending := none } by simp [finalizePending]]
    show lookupL (setAll _ (namesFor r k) Value.vNaN) k = some Value.vNaN
    rw [lookupL_setAll, if_pos (mem_namesFor_self hf)]
  · intro res excepts hreq hcho
    unfold validate
    rw [hreq, hcho]
    simp

/-- Witness for C4 at a concrete input: `--count abc` with `count`
declared number. -/
theorem numeric_leniency_w :
    lookupL (parseTokens numReg
        ([] ++ [Token.longFlag "count" none, Token.positional "abc"])).assign "count" =
      some Value.vNaN ∧
    (∀ (res : ParsedResult) (excepts : List String), requiredMissing numReg res = [] →
      choicesViolations numReg res = [] →
      validate numReg false excepts res = Except.ok res) :=
  numeric_leniency numReg "count" "abc" { key := "count", type := OptType.number }
    (by decide) (by decide) (by decide) [] (by decide)

/-! ## C10: boolean flag semantics -/

theorem lookupL_mapNames (names : List String) (v : Value) (n : String) :
    lookupL (names.map (fun m => (m, v))) n = if n ∈ names then some v else none := by
  induction names with
  | nil => simp [lookupL]
  | cons m rest ih =>
    by_cases hn : n = m
    · simp [lookupL, hn]
    · simp only [List.map_cons, lookupL, if_neg hn, ih]
      simp [List.mem_cons, hn]

theorem lookupL_defaultsList (n : String) (s : OptionSpec) (v : Value) :
    ∀ (l : List OptionSpec), (∀ t ∈ l, n ∈ t.names → t = s) → s ∈ l →
      defaultValueOf s = some v → n ∈ s.names →
      lookupL ((l.map (fun t =>
        match defaultValueOf t with
        | some w => t.names.map (fun m => (m, w))
        | none => [])).flatten) n = some v := by
  intro l
  induction l with
  | nil => intro _ hs; cases hs
  | cons t l ih =>
    intro hone hs hv hn
    have hflat : ((t :: l).map (fun t =>
        match defaultValueOf t with
        | some w => t.names.map (fun m => (m, w))
        | none => [])).flatten =
        (match defaultValueOf t with
         | some w => t.names.map (fun m => (m, w))
         | none => []) ++
        ((l.map (fun t =>
          match defaultValueOf t with
          | some w => t.names.map (fun m => (m, w))
          | none => [])).flatten) := by
      simp
    rw [hflat, lookupL_append]
    by_cases hnt : n ∈ t.names
    · have hts : t = s := hone t (List.mem_cons_self t l) hnt
      subst hts
      rw [hv]
      simp [lookupL_mapNames, hn]
    · have hnone : lookupL (match defaultValueOf t with
          | some w => t.names.map (fun m => (m, w))
          | none => []) n = none := by
        cases hdv : defaultValueOf t with
        | none => rfl
        | some w => simp [lookupL_mapNames, hnt]
      rw [hnone]
      have hsl : s ∈ l := by
        rcases List.mem_cons.mp hs with he | hm
        · exact absurd (he ▸ hn) hnt
        · exact hm
      exact ih (fun u hu hnu => hone u (List.mem_cons_of_mem t hu) hnu) hsl hv hn

theorem lookupL_defaultsOf {r : Registry} (hU : r.Uniq) {s : OptionSpec} (hs : s ∈ r.specs)
    {n : String} (hn : n ∈ s.names) {v : Value} (hv : defaultValueOf s = some v) :
    lookupL (defaultsOf r) n = some v := by
  unfold defaultsOf
  exact lookupL_defaultsList n s v r.specs
    (fun t ht hnt => hU t ht s hs n hnt hn) hs hv hn

/-- C10: A boolean-typed key absent from every source is assigned false
in the assembled result unless an explicit default was set (in which
case the explicit default is used); and when the flag is present, a
positional token immediately following it is not consumed as its value —
the flag stays true and the token remains an ordinary positional. -/
theorem boolean_default_and_no_consume :
    (∀ (r : Registry), r.Uniq → ∀ s ∈ r.specs, s.type = OptType.boolean →
      ∀ (cli cfg env : List (String × Value)),
        lookupL cli s.key = none → lookupL cfg s.key = none → lookupL env s.key = none →
        (s.dflt = none →
          lookupL (assemble cli cfg env (defaultsOf r)) s.key = some (Value.vBool false)) ∧
        (∀ d, s.dflt = some d →
          lookupL (assemble cli cfg env (defaultsOf r)) s.key = some d)) ∧
    (∀ (r : Registry) (k : String) (s : OptionSpec), findSpec r k = some s →
      s.type = OptType.boolean → ∀ (w : String) (ts : List Token), Token.separator ∉ ts →
        lookupL (parseTokens r (ts ++ [Token.longFlag k none, Token.positional w])).assign k =
          some (Value.vBool true) ∧
        (parseTokens r (ts ++ [Token.longFlag k none, Token.positional w])).positionals =
          (parseTokens r ts).positionals ++ [w]) := by
  constructor
  · intro r hU s hs htype cli cfg env hcli hcfg henv
    have hbase : ∀ v, defaultValueOf s = some v →
        lookupL (assemble cli cfg env (defaultsOf r)) s.key = some v := by
      intro v hv
      unfold assemble
      rw [lookupL_mergeInto_none _ hcli, lookupL_mergeInto_none _ hcfg,
        lookupL_mergeInto_none _ henv]
      exact lookupL_defaultsOf hU hs (List.mem_cons_self _ _) hv
    constructor
    · intro hd
      exact hbase (Value.vBool false) (by simp [defaultValueOf, hd, htype])
    · intro d hd
      exact hbase d (by simp [defaultValueOf, hd])
  · intro r k s hf htype w ts hsep
    have hA : (ts.foldl (step r) {}).afterSep = false := (foldl_noSep r ts {} hsep rfl).1
    have htk : typeOf r k = OptType.boolean := by simp [typeOf, hf, htype]
    have hstep1 : step r (ts.foldl (step r) {}) (Token.longFlag k none) =
        { finalizePending (ts.foldl (step r) {}) with
          assign := setAll (finalizePending (ts.foldl (step r) {})).assign
            (namesFor r k) (Value.vBool true),
          pending := none } := by
      have h2 : step r (ts.foldl (step r) {}) (Token.longFlag k none) =
          startFlag r (finalizePending (ts.foldl (step r) {})) k none true := by
        simp [step, hA]
      rw [h2]
      unfold startFlag
      rw [show flagEffect r (finalizePending (ts.foldl (step r) {})).assign k none true =
          (setAll (finalizePending (ts.foldl (step r) {})).assign
            (namesFor r k) (Value.vBool true), none) by
        simp [flagEffect, htk, boolOf]]
    have hsplit : parseTokens r (ts ++ [Token.longFlag k none, Token.positional w]) =
        finalizePending (step r (step r (ts.foldl (step r) {}) (Token.longFlag k none))
          (Token.positional w)) := by
      unfold parseTokens
      rw [List.foldl_append]
      rfl
    have hstep2 : step r (step r (ts.foldl (step r) {}) (Token.longFlag k none))
        (Token.positional w) =
        { finalizePending (ts.foldl (step r) {}) with
          assign := setAll (finalizePending (ts.foldl (step r) {})).assign
            (namesFor r k) (Value.vBool true),
          pending := none,
          positionals := (finalizePending (ts.foldl (step r) {})).positionals ++ [w] } := by
      rw [hstep1]
      simp [step, feedPositional, hA]
    constructor
    · rw [hsplit, hstep2]
      rw [show finalizePending
          { finalizePending (ts.foldl (step r) {}) with
            assign := setAll (finalizePending (ts.foldl (step r) {})).assign
              (namesFor r k) (Value.vBool true),
            pending := none,
            positionals := (finalizePending (ts.foldl (step r) {})).positionals ++ [w] } =
          { finalizePending (ts.foldl (step r) {}) with
            assign := setAll (finalizePending (ts.foldl (step r) {})).assign
              (namesFor r k) (Value.vBool true),
            pending := none,
            positionals := (finalizePending (ts.foldl (step r) {})).positionals ++ [w] } by
        simp [finalizePending]]
      show lookupL (setAll _ (namesFor r k) (Value.vBool true)) k = some (Value.vBool true)
      rw [lookupL_setAll, if_pos (mem_namesFor_self hf)]
    · rw [hsplit, hstep2]
      simp [parseTokens]

/-- Witness for C10 at a concrete input: `verbose` declared boolean. -/
theorem boolean_default_and_no_consume_w :
    lookupL (assemble [] [] [] (defaultsOf demoReg)) "verbose" = some (Value.vBool false) ∧
    lookupL (parseTokens demoReg
        ([] ++ [Token.longFlag "verbose" none, Token.positional "x"])).assign "verbose" =
      some (Value.vBool true) :=
  ⟨(boolean_default_and_no_consume.1 demoReg (by unfold Registry.Uniq; decide)
      { key := "verbose", aliases := ["v"], type := OptType.boolean }
      (by unfold demoReg; exact List.mem_cons_self _ _) (by decide) [] [] []
      (by decide) (by decide) (by decide)).1 (by decide),
   (boolean_default_and_no_consume.2 demoReg "verbose"
      { key := "verbose", aliases := ["v"], type := OptType.boolean }
      (by decide) (by decide) "x" [] (by decide)).1⟩

/-! ## C5: command resolution -/

/-- C5: Command resolution matches positional tokens against the command
tree by literal-segment equality first, falling back to a
named-placeholder child.  With commands `serve` and `serve start <name>`
registered, `["serve","start","web"]` resolves to the
`serve start <name>` handler with positional binding name="web", while
`["serve","stop"]` under strict mode fails with MissingCommand. -/
theorem command_resolution :
    resolveStrict demoCmds ["serve", "start", "web"] =
      Except.ok ⟨some 2, true, [("name", "web")], []⟩ ∧
    resolveStrict demoCmds ["serve", "stop"] = Except.error ParseError.missingCommand ∧
    (∀ (cs : List CmdTree) (t : String) (c : CmdTree), c ∈ cs → isLit c t = true →
      ∃ c2, findChild cs t = some c2 ∧ isLit c2 t = true) := by
  refine ⟨by decide, by decide, ?_⟩
  intro cs t c hc hlit
  cases hfind : cs.find? (fun c => isLit c t) with
  | none =>
    exact absurd hlit (by simpa using List.find?_eq_none.mp hfind c hc)
  | some c2 =>
    refine ⟨c2, ?_, ?_⟩
    · unfold findChild
      rw [hfind]
    · have h := List.find?_some hfind
      exact h

/-- Witness for C5 at a concrete input: when a literal child matches the
token, the selected child is a literal match, not the placeholder. -/
theorem command_resolution_w :
    ∃ c2, findChild [startNode] "start" = some c2 ∧ isLit c2 "start" = true :=
  command_resolution.2.2 [startNode] "start" startNode (List.mem_cons_self _ _) (by decide)

/-! ## C7: idempotent re-registration with field override -/

theorem mergeSpec_key (old new : OptionSpec) : (mergeSpec old new).key = old.key := rfl

theorem mergeSpec_self (s : OptionSpec) : mergeSpec s s = s := by
  obtain ⟨k, al, ty, df, rq, ch, na, ra⟩ := s
  cases ty <;> cases df <;> cases na <;> simp [mergeSpec]

theorem mergeSpec_idem (a b : OptionSpec) : mergeSpec (mergeSpec a b) b = mergeSpec a b := by
  unfold mergeSpec
  simp only [OptionSpec.mk.injEq, true_and]
  refine ⟨?_, ?_, ?_, ?_, ?_, ?_, ?_⟩
  · by_cases h : b.aliases = [] <;> simp [h]
  · cases h : b.type <;> rfl
  · cases h : b.dflt <;> rfl
  · cases h : b.required <;> simp
  · by_cases h : b.choices = [] <;> simp [h]
  · cases h : b.nargs <;> rfl
  · cases h : b.requiresArg <;> simp

theorem registerOption_ok_cases {r : Registry} {s : OptionSpec} {r2 : Registry}
    (h : registerOption r s = Except.ok r2) :
    (¬ ∃ n ∈ s.names, ∃ t ∈ r.specs, n ∈ t.names ∧ t.key ≠ s.key) ∧
    ((∃ old, findByKey r s.key = some old ∧
        r2 = ⟨r.specs.map (fun t => if t.key = s.key then mergeSpec t s else t)⟩) ∨
     (findByKey r s.key = none ∧ r2 = ⟨r.specs ++ [s]⟩)) := by
  unfold registerOption at h
  by_cases hc : ∃ n ∈ s.names, ∃ t ∈ r.specs, n ∈ t.names ∧ t.key ≠ s.key
  · rw [if_pos hc] at h
    cases h
  · rw [if_neg hc] at h
    refine ⟨hc, ?_⟩
    cases hfk : findByKey r s.key with
    | some old =>
      rw [hfk] at h
      left
      refine ⟨old, rfl, ?_⟩
      cases h
      rfl
    | none =>
      rw [hfk] at h
      right
      refine ⟨rfl, ?_⟩
      cases h
      rfl

theorem findByKey_none {r : Registry} {k : String} (h : findByKey r k = none) :
    ∀ t ∈ r.specs, t.key ≠ k := by
  intro t ht
  have := List.find?_eq_none.mp h t ht
  simpa using this

theorem findByKey_some_key {r : Registry} {k : String} {t : OptionSpec}
    (h : findByKey r k = some t) : t.key = k := by
  have := List.find?_some h
  simpa using this

theorem findByKey_map_if (r : Registry) (s : OptionSpec) (k : String) :
    findByKey ⟨r.specs.map (fun t => if t.key = s.key then mergeSpec t s else t)⟩ k =
      Option.map (fun t => if t.key = s.key then mergeSpec t s else t) (findByKey r k) := by
  unfold findByKey
  show List.find? _ (r.specs.map _) = _
  rw [List.find?_map]
  have hp : ((fun t : OptionSpec => decide (t.key = k)) ∘
      (fun t => if t.key = s.key then mergeSpec t s else t)) =
      (fun t : OptionSpec => decide (t.key = k)) := by
    funext t
    show decide ((if t.key = s.key then mergeSpec t s else t).key = k) = decide (t.key = k)
    by_cases h : t.key = s.key
    · rw [if_pos h]
      rfl
    · rw [if_neg h]
  rw [hp]

theorem registerOption_idem {r : Registry} {s : OptionSpec} {r1 : Registry}
    (h : registerOption r s = Except.ok r1) : registerOption r1 s = Except.ok r1 := by
  obtain ⟨hnc, hcase⟩ := registerOption_ok_cases h
  rcases hcase with ⟨old, hold, hr1⟩ | ⟨hnone, hr1⟩
  · -- merge case
    have hr1s : r1.specs = r.specs.map
        (fun t => if t.key = s.key then mergeSpec t s else t) := by
      rw [hr1]
    have hnc1 : ¬ ∃ n ∈ s.names, ∃ t ∈ r1.specs, n ∈ t.names ∧ t.key ≠ s.key := by
      rintro ⟨n, hn, t', ht', hnt', hkt'⟩
      rw [hr1s] at ht'
      obtain ⟨t, ht, rfl⟩ := List.mem_map.mp ht'
      by_cases hk : t.key = s.key
      · rw [if_pos hk] at hnt' hkt'
        exact hkt' hk
      · rw [if_neg hk] at hnt' hkt'
        exact hnc ⟨n, hn, t, ht, hnt', hkt'⟩
    have holdk : old.key = s.key := findByKey_some_key hold
    have hfk1 : findByKey r1 s.key = some (mergeSpec old s) := by
      rw [hr1, findByKey_map_if, hold]
      show some (if old.key = s.key then mergeSpec old s else old) = _
      rw [if_pos holdk]
    unfold registerOption
    rw [if_neg hnc1, hfk1]
    have hmaps : r1.specs.map (fun t => if t.key = s.key then mergeSpec t s else t) =
        r1.specs := by
      rw [hr1s, List.map_map]
      refine List.map_congr_left ?_
      intro t _
      simp only [Function.comp_apply]
      by_cases hk : t.key = s.key
      · rw [if_pos hk, if_pos (show (mergeSpec t s).key = s.key from hk), mergeSpec_idem]
      · rw [if_neg hk, if_neg hk]
    rw [hmaps]
  · -- append case
    have hr1s : r1.specs = r.specs ++ [s] := by
      rw [hr1]
    have hkeys : ∀ t ∈ r.specs, t.key ≠ s.key := findByKey_none hnone
    have hnc1 : ¬ ∃ n ∈ s.names, ∃ t ∈ r1.specs, n ∈ t.names ∧ t.key ≠ s.key := by
      rintro ⟨n, hn, t', ht', hnt', hkt'⟩
      rw [hr1s] at ht'
      rcases List.mem_append.mp ht' with hl | hr
      · exact hnc ⟨n, hn, t', hl, hnt', hkt'⟩
      · have : t' = s := by simpa using hr
        exact hkt' (by rw [this])
    have hfk1 : findByKey r1 s.key = some s := by
      unfold findByKey
      rw [hr1s, List.find?_append]
      have h1 : r.specs.find? (fun t => decide (t.key = s.key)) = none := hnone
      rw [h1]
      simp
    unfold registerOption
    rw [if_neg hnc1, hfk1]
    have hmaps : r1.specs.map (fun t => if t.key = s.key then mergeSpec t s else t) =
        r1.specs := by
      rw [hr1s, List.map_append]
      have hleft : r.specs.map (fun t => if t.key = s.key then mergeSpec t s else t) =
          r.specs := by
        have hid : r.specs.map (fun t => if t.key = s.key then mergeSpec t s else t) =
            r.specs.map id :=
          List.map_congr_left (fun t ht => by rw [if_neg (hkeys t ht)]; rfl)
        rw [hid, List.map_id]
      have hright : [s].map (fun t => if t.key = s.key then mergeSpec t s else t) = [s] := by
        simp [mergeSpec_self]
      rw [hleft, hright]
    rw [hmaps]

theorem registerOption_override {r : Registry} {s2 old : OptionSpec} {r2 : Registry}
    (hfko : findByKey r s2.key = some old) (h : registerOption r s2 = Except.ok r2) :
    findByKey r2 s2.key = some (mergeSpec old s2) := by
  obtain ⟨_, hcase⟩ := registerOption_ok_cases h
  rcases hcase with ⟨old2, hold2, hr2⟩ | ⟨hnone, _⟩
  · have holds : old2 = old := by
      rw [hfko] at hold2
      exact (Option.some.inj hold2).symm
    subst holds
    have holdk : old2.key = s2.key := findByKey_some_key hold2
    rw [hr2, findByKey_map_if, hfko]
    show some (if old2.key = s2.key then mergeSpec old2 s2 else old2) = _
    rw [if_pos holdk]
  · rw [hfko] at hnone
    cases hnone

/-- C7: Registering the same key twice with identical fields yields a
registry equal to registering it once; on re-registration of an
existing key, the merged spec takes the later call's non-empty fields
and falls back to the earlier spec's fields where the later call leaves
them empty. -/
theorem register_idempotent_override :
    (∀ (r : Registry) (s : OptionSpec) (r1 : Registry),
      registerOption r s = Except.ok r1 → registerOption r1 s = Except.ok r1) ∧
    (∀ (r : Registry) (s2 old : OptionSpec) (r2 : Registry),
      findByKey r s2.key = some old → registerOption r s2 = Except.ok r2 →
      findByKey r2 s2.key = some (mergeSpec old s2)) ∧
    (∀ old new : OptionSpec,
      (new.dflt = none → (mergeSpec old new).dflt = old.dflt) ∧
      (∀ d, new.dflt = some d → (mergeSpec old new).dflt = some d) ∧
      (new.aliases ≠ [] → (mergeSpec old new).aliases = new.aliases) ∧
      (new.aliases = [] → (mergeSpec old new).aliases = old.aliases) ∧
      (new.type ≠ OptType.implicit → (mergeSpec old new).type = new.type) ∧
      (new.type = OptType.implicit → (mergeSpec old new).type = old.type) ∧
      (new.choices ≠ [] → (mergeSpec old new).choices = new.choices)) := by
  refine ⟨fun r s r1 h => registerOption_idem h,
          fun r s2 old r2 hf h => registerOption_override hf h,
          fun old new => ⟨?_, ?_, ?_, ?_, ?_, ?_, ?_⟩⟩
  · intro h
    simp [mergeSpec, h]
  · intro d h
    simp [mergeSpec, h]
  · intro h
    simp [mergeSpec, h]
  · intro h
    simp [mergeSpec, h]
  · intro h
    unfold mergeSpec
    cases hty : new.type <;> simp_all
  · intro h
    simp [mergeSpec, h]
  · intro h
    simp [mergeSpec, h]

/-- Witness for C7 at a concrete input: registering the `verbose` spec
twice equals registering it once, and a later default overrides. -/
theorem register_idempotent_override_w :
    registerOption
      ⟨[{ key := "verbose", aliases := ["v"], type := OptType.boolean }]⟩
      { key := "verbose", aliases := ["v"], type := OptType.boolean } =
    Except.ok ⟨[{ key := "verbose", aliases := ["v"], type := OptType.boolean }]⟩ :=
  register_idempotent_override.1 Registry.empty
    { key := "verbose", aliases := ["v"], type := OptType.boolean }
    ⟨[{ key := "verbose", aliases := ["v"], type := OptType.boolean }]⟩ (by decide)

/-! ## C6: alias conflicts and registry uniqueness -/

theorem registerAlias_conflict {r : Registry} {k a k2 : String}
    (hca : canonOf r a = some k2) (hne : k2 ≠ canonTarget r k) :
    registerAlias r k a = Except.error (ConfigError.configurationError a) := by
  unfold registerAlias
  unfold canonOf at hca
  cases hfa : findSpec r a with
  | none =>
    rw [hfa] at hca
    cases hca
  | some s =>
    rw [hfa] at hca
    have hk2 : s.key = k2 := by simpa using hca
    simp only [hfa]
    rw [if_neg (fun hEq => hne (hk2 ▸ hEq))]

theorem uniq_empty : Registry.empty.Uniq := by
  intro s hs
  cases hs

theorem uniq_key_eq {r1 : Registry} (hU1 : r1.Uniq) {u v : OptionSpec}
    (hu : u ∈ r1.specs) (hv : v ∈ r1.specs) (hk : u.key = v.key) : u = v := by
  refine hU1 u hu v hv u.key (List.mem_cons_self _ _) ?_
  rw [hk]
  exact List.mem_cons_self _ _

theorem freshSpec_names (k : String) : (freshSpec k).names = [k] := rfl

theorem uniq_ensure {r : Registry} {k : String} (hU : r.Uniq) : (ensureSpec r k).Uniq := by
  unfold ensureSpec
  cases hf : findSpec r k with
  | some _ => exact hU
  | none =>
    intro s hs t ht n h1 h2
    have hs' : s ∈ r.specs ∨ s = freshSpec k := by
      rcases List.mem_append.mp hs with h | h
      · exact Or.inl h
      · exact Or.inr (by simpa using h)
    have ht' : t ∈ r.specs ∨ t = freshSpec k := by
      rcases List.mem_append.mp ht with h | h
      · exact Or.inl h
      · exact Or.inr (by simpa using h)
    rcases hs' with hs1 | hs2 <;> rcases ht' with ht1 | ht2
    · exact hU s hs1 t ht1 n h1 h2
    · subst ht2
      have hn : n = k := by simpa [freshSpec_names] using h2
      exact absurd (hn ▸ h1) (findSpec_none hf s hs1)
    · subst hs2
      have hn : n = k := by simpa [freshSpec_names] using h1
      exact absurd (hn ▸ h2) (findSpec_none hf t ht1)
    · rw [hs2, ht2]

theorem uniq_updateSpec {r : Registry} {k : String} {f : OptionSpec → OptionSpec}
    (hpres : ∀ t, (f t).key = t.key ∧ (f t).aliases = t.aliases)
    (hU : r.Uniq) : (updateSpec r k f).Uniq := by
  have hU1 : (ensureSpec r k).Uniq := uniq_ensure hU
  have hnames : ∀ t : OptionSpec,
      (if t.key = canonTarget r k then f t else t).names = t.names := by
    intro t
    by_cases h : t.key = canonTarget r k
    · rw [if_pos h]
      show (f t).key :: (f t).aliases = t.key :: t.aliases
      rw [(hpres t).1, (hpres t).2]
    · rw [if_neg h]
  intro s hs t ht n h1 h2
  obtain ⟨s0, hs0, rfl⟩ := List.mem_map.mp hs
  obtain ⟨t0, ht0, rfl⟩ := List.mem_map.mp ht
  rw [hnames s0] at h1
  rw [hnames t0] at h2
  rw [hU1 s0 hs0 t0 ht0 n h1 h2]

theorem mergeSpec_names_sub (t s : OptionSpec) :
    ∀ x ∈ (mergeSpec t s).names, x ∈ t.names ∨ x ∈ s.names := by
  intro x hx
  have hx' : x ∈ t.key :: (if s.aliases = [] then t.aliases else s.aliases) := hx
  rcases List.mem_cons.mp hx' with h | h
  · exact Or.inl (h ▸ List.mem_cons_self _ _)
  · by_cases ha : s.aliases = []
    · rw [if_pos ha] at h
      exact Or.inl (List.mem_cons_of_mem _ h)
    · rw [if_neg ha] at h
      exact Or.inr (List.mem_cons_of_mem _ h)

theorem uniq_registerOption {r : Registry} {s : OptionSpec} {r2 : Registry}
    (hU : r.Uniq) (h : registerOption r s = Except.ok r2) : r2.Uniq := by
  obtain ⟨hnc, hcase⟩ := registerOption_ok_cases h
  have hnoconf : ∀ n ∈ s.names, ∀ t ∈ r.specs, n ∈ t.names → t.key = s.key := by
    intro n hn t ht hnt
    by_contra hne
    exact hnc ⟨n, hn, t, ht, hnt, hne⟩
  rcases hcase with ⟨old, hold, hr2⟩ | ⟨hnone, hr2⟩
  · subst hr2
    have names_of_f : ∀ (w : OptionSpec) (n : String),
        n ∈ (if w.key = s.key then mergeSpec w s else w).names →
        n ∈ w.names ∨ (w.key = s.key ∧ n ∈ s.names) := by
      intro w n hn
      by_cases hk : w.key = s.key
      · rw [if_pos hk] at hn
        rcases mergeSpec_names_sub w s n hn with h1 | h1
        · exact Or.inl h1
        · exact Or.inr ⟨hk, h1⟩
      · rw [if_neg hk] at hn
        exact Or.inl hn
    intro u hu v hv n h1 h2
    obtain ⟨u0, hu0, rfl⟩ := List.mem_map.mp hu
    obtain ⟨v0, hv0, rfl⟩ := List.mem_map.mp hv
    have hkey : u0 = v0 := by
      rcases names_of_f u0 n h1 with h1a | ⟨h1k, h1s⟩ <;>
        rcases names_of_f v0 n h2 with h2a | ⟨h2k, h2s⟩
      · exact hU u0 hu0 v0 hv0 n h1a h2a
      · have hks : u0.key = s.key := hnoconf n h2s u0 hu0 h1a
        exact uniq_key_eq hU hu0 hv0 (hks.trans h2k.symm)
      · have hks : v0.key = s.key := hnoconf n h1s v0 hv0 h2a
        exact uniq_key_eq hU hu0 hv0 (h1k.trans hks.symm)
      · exact uniq_key_eq hU hu0 hv0 (h1k.trans h2k.symm)
    rw [hkey]
  · subst hr2
    have hkeys : ∀ t ∈ r.specs, t.key ≠ s.key := findByKey_none hnone
    intro u hu v hv n h1 h2
    have hu' : u ∈ r.specs ∨ u = s := by
      rcases List.mem_append.mp hu with h | h
      · exact Or.inl h
      · exact Or.inr (by simpa using h)
    have hv' : v ∈ r.specs ∨ v = s := by
      rcases List.mem_append.mp hv with h | h
      · exact Or.inl h
      · exact Or.inr (by simpa using h)
    rcases hu' with hu1 | hu2 <;> rcases hv' with hv1 | hv2
    · exact hU u hu1 v hv1 n h1 h2
    · subst hv2
      exact absurd (hnoconf n h2 u hu1 h1) (hkeys u hu1)
    · subst hu2
      exact absurd (hnoconf n h1 v hv1 h2) (hkeys v hv1)
    · rw [hu2, hv2]

theorem uniq_registerAlias {r : Registry} {k a : String} {r2 : Registry}
    (hU : r.Uniq) (h : registerAlias r k a = Except.ok r2) : r2.Uniq := by
  unfold registerAlias at h
  cases hfa : findSpec r a with
  | some s =>
    simp only [hfa] at h
    by_cases hk : s.key = canonTarget r k
    · rw [if_pos hk] at h
      have h2 := Except.ok.inj h
      subst h2
      exact hU
    · rw [if_neg hk] at h
      simp at h
  | none =>
    simp only [hfa] at h
    have h2 := Except.ok.inj h
    subst h2
    have hU1 : (ensureSpec r k).Uniq := uniq_ensure hU
    have hnotin : ∀ t ∈ r.specs, a ∉ t.names := findSpec_none hfa
    have key_of_a : ∀ t ∈ (ensureSpec r k).specs, a ∈ t.names → t.key = canonTarget r k := by
      intro t ht hat
      unfold ensureSpec at ht
      cases hfk : findSpec r k with
      | some s1 =>
        rw [hfk] at ht
        exact absurd hat (hnotin t ht)
      | none =>
        rw [hfk] at ht
        rcases List.mem_append.mp ht with h1 | h1
        · exact absurd hat (hnotin t h1)
        · have hts : t = freshSpec k := by simpa using h1
          subst hts
          show k = canonTarget r k
          unfold canonTarget
          rw [hfk]
          rfl
    have names_of_g : ∀ (w : OptionSpec) (n : String),
        n ∈ (if w.key = canonTarget r k then { w with aliases := w.aliases ++ [a] }
          else w).names →
        n ∈ w.names ∨ (w.key = canonTarget r k ∧ n = a) := by
      intro w n hn
      by_cases hk : w.key = canonTarget r k
      · rw [if_pos hk] at hn
        have hn' : n ∈ w.key :: (w.aliases ++ [a]) := hn
        rcases List.mem_cons.mp hn' with h1 | h1
        · exact Or.inl (h1 ▸ List.mem_cons_self _ _)
        · rcases List.mem_append.mp h1 with h2 | h2
          · exact Or.inl (List.mem_cons_of_mem _ h2)
          · exact Or.inr ⟨hk, by simpa using h2⟩
      · rw [if_neg hk] at hn
        exact Or.inl hn
    intro u hu v hv n h1 h2
    obtain ⟨u0, hu0, rfl⟩ := List.mem_map.mp hu
    obtain ⟨v0, hv0, rfl⟩ := List.mem_map.mp hv
    have hkey : u0 = v0 := by
      rcases names_of_g u0 n h1 with h1a | ⟨h1k, h1s⟩ <;>
        rcases names_of_g v0 n h2 with h2a | ⟨h2k, h2s⟩
      · exact hU1 u0 hu0 v0 hv0 n h1a h2a
      · have hks : u0.key = canonTarget r k := key_of_a u0 hu0 (h2s ▸ h1a)
        exact uniq_key_eq hU1 hu0 hv0 (hks.trans h2k.symm)
      · have hks : v0.key = canonTarget r k := key_of_a v0 hv0 (h1s ▸ h2a)
        exact uniq_key_eq hU1 hu0 hv0 (h1k.trans hks.symm)
      · exact uniq_key_eq hU1 hu0 hv0 (h1k.trans h2k.symm)
    rw [hkey]

/-- C6: Registering an alias already bound to a different canonical key
fails with a ConfigurationError at registration time; and every
reachable registry state satisfies the uniqueness invariant — each
canonical key and each alias belongs to exactly one OptionSpec. -/
theorem alias_conflict_and_uniqueness :
    (∀ (r : Registry) (k a k2 : String), canonOf r a = some k2 → k2 ≠ canonTarget r k →
      registerAlias r k a = Except.error (ConfigError.configurationError a)) ∧
    (∀ r : Registry, Reachable r → r.Uniq) := by
  refine ⟨fun r k a k2 hca hne => registerAlias_conflict hca hne, ?_⟩
  intro r hr
  induction hr with
  | empty => exact uniq_empty
  | opt _ hok ih => exact uniq_registerOption ih hok
  | aliasStep _ hok ih => exact uniq_registerAlias ih hok
  | dflt _ ih => exact uniq_updateSpec (fun t => ⟨rfl, rfl⟩) ih
  | choices _ ih => exact uniq_updateSpec (fun t => ⟨rfl, rfl⟩) ih
  | required _ ih => exact uniq_updateSpec (fun t => ⟨rfl, rfl⟩) ih

/-- Witness for C6 at a concrete input: aliasing `x` (already an alias
of `a`) to the distinct key `b` fails, and the empty registry is a
reachable state satisfying the invariant. -/
theorem alias_conflict_and_uniqueness_w :
    registerAlias ⟨[{ key := "a", aliases := ["x"] }, { key := "b" }]⟩ "b" "x" =
      Except.error (ConfigError.configurationError "x") ∧
    Registry.empty.Uniq :=
  ⟨alias_conflict_and_uniqueness.1 ⟨[{ key := "a", aliases := ["x"] }, { key := "b" }]⟩
      "b" "x" "a" (by decide) (by decide),
   alias_conflict_and_uniqueness.2 Registry.empty Reachable.empty⟩

end Yargs
